import Mathlib

/-!
# Verification of `scripts/import_volvo_to_supabase.py`

A shallow embedding, in Lean 4, of the data-shaping core of the one-shot
ETL script `import_volvo_to_supabase.py`: the deduplication query that
selects one canonical product row per OE-number, the fitment and price
rendering in `format_fitments` / `create_chunk`, the variant collection
in `get_product_variants`, the batching loop of `import_products`, the
embedding attachment of `generate_embeddings`, the sink write of
`insert_to_supabase`, and the final cost estimate.

Modelling conventions:
  * SQLite rows become Lean structures; a nullable column becomes an
    `Option` field.
  * Python floats holding SEK prices are modelled as exact integral
    amounts of hundredths of SEK (öre), so `f"{x:.2f}"` becomes an exact
    two-decimal rendering.  All prices appearing in the spec's examples
    have at most two decimals.
  * Python truthiness on a string/float/None is made explicit: `None`,
    `""` and `0` are falsy.
  * SQLite specifics that the script relies on are reproduced: `x =
    'verified'` is NULL (and sorts after `0` under `DESC`) when `x` is
    NULL; `MIN`/`MAX` ignore NULLs; `GROUP_CONCAT(DISTINCT e)` skips
    NULLs and de-duplicates keeping first occurrence in row order;
    ordering on text columns is binary (codepoint) order; when an
    `ORDER BY ... LIMIT 1` leaves ties, SQLite's scan visits rows in
    rowid (= `id`) order, so the least id among key-equal rows wins —
    the embedding pins that behaviour by adding `id` as the final
    component of the ranking key.
-/

namespace VolvoImport

/-- Python truthiness of a nullable string: `None` and `""` are falsy. -/
def truthyStr : Option String → Bool
  | none => false
  | some s => s ≠ ""

/-- Python `a or b` for a nullable string `a` and default `b`:
returns `b` when `a` is `None` or `""`. -/
def strOr (a : Option String) (b : String) : String :=
  match a with
  | none => b
  | some s => if s = "" then b else s

/-- Python truthiness of a nullable number (year or price column):
`None` and `0` are falsy. -/
def truthyNat : Option Nat → Bool
  | none => false
  | some n => n ≠ 0

/-- A row of the `products` table, with the columns the script reads.
Prices are in öre (hundredths of SEK). -/
structure ProductRow where
  id : Nat
  oe_nummer : String
  normalized_name : Option String
  swedish_translation : Option String
  skandix_name_eng : Option String
  kl_namn : Option String
  folkrace_namn : Option String
  vp_namn : Option String
  cvr_namn : Option String
  fordon_namn : Option String
  skandix_price : Option Nat
  part_system : Option String
  has_fitments : Bool
  translation_status : Option String
  skandix_product_id : Option String
  vp_artikelnummer : Option String
  source : Option String
  deriving DecidableEq, Repr

/-- The eligibility predicate `has_fitments = 1 OR translation_status =
'verified'` shared by the main query and `get_product_variants`
(a NULL `translation_status` makes the comparison NULL, hence false). -/
def eligible (r : ProductRow) : Bool :=
  r.has_fitments || r.translation_status == some "verified"

/-- The four ranking columns of the dedup subquery
(`ORDER BY has_fitments DESC, translation_status = 'verified' DESC,
normalized_name IS NOT NULL DESC, skandix_price IS NOT NULL DESC`),
packed into one natural number so that numeric `<` equals the
lexicographic order of the four columns.  `translation_status =
'verified'` is three-valued in SQLite (`1`, `0`, NULL) and NULL sorts
last under `DESC`, so that component takes values `0 < 4 < 8`; the
binary components take `0/12`, `0/2`, `0/1`.  Smaller is better. -/
def rankFlags (r : ProductRow) : Nat :=
  (if r.has_fitments then 0 else 12) +
  (match r.translation_status with
   | some s => if s = "verified" then 0 else 4
   | none => 8) +
  (if r.normalized_name.isSome then 0 else 2) +
  (if r.skandix_price.isSome then 0 else 1)

/-- Full ranking key of the dedup subquery: the packed ranking columns,
then the rowid `id` (SQLite's scan order, which settles ties). -/
def rankKey (r : ProductRow) : Nat × Nat :=
  (rankFlags r, r.id)

/-- Strict lexicographic order on ranking keys: "strictly better". -/
def keyLt (a b : Nat × Nat) : Prop :=
  a.1 < b.1 ∨ (a.1 = b.1 ∧ a.2 < b.2)

instance (a b : Nat × Nat) : Decidable (keyLt a b) := by
  unfold keyLt; exact inferInstance

/-- The correlated subquery `SELECT id FROM products p2 WHERE
p2.oe_nummer = p1.oe_nummer ORDER BY ... LIMIT 1`, evaluated on the list
of rows of one OE-number group: the key-minimal row. -/
def bestOfGroup : List ProductRow → Option ProductRow
  | [] => none
  | r :: rest =>
    match bestOfGroup rest with
    | none => some r
    | some b => if keyLt (rankKey b) (rankKey r) then some b else some r

/-- The `WHERE` clause of the main query of `import_products`: rows whose
id is the best of their own OE-number group, intersected with the
eligibility filter.  (The outer `ORDER BY has_fitments DESC, id` and the
`LIMIT` only order and cap the stream; they do not change the selected
set, so they are not part of this definition.) -/
def canonicalRows (table : List ProductRow) : List ProductRow :=
  table.filter fun r =>
    (match bestOfGroup (table.filter fun s => s.oe_nummer == r.oe_nummer) with
     | some b => b.id == r.id
     | none => false)
    && eligible r

/-! ### Order lemmas for the ranking key -/

theorem keyLt_irrefl (a : Nat × Nat) : ¬ keyLt a a := by
  unfold keyLt; omega

theorem keyLt_asymm {a b : Nat × Nat} (h : keyLt a b) : ¬ keyLt b a := by
  unfold keyLt at *; omega

theorem keyLt_trans {a b c : Nat × Nat} (h1 : keyLt a b) (h2 : keyLt b c) :
    keyLt a c := by
  unfold keyLt at *; omega

theorem keyLt_trichotomy (a b : Nat × Nat) :
    keyLt a b ∨ a = b ∨ keyLt b a := by
  unfold keyLt
  rcases a with ⟨a1, a2⟩
  rcases b with ⟨b1, b2⟩
  simp only [Prod.mk.injEq]
  omega

theorem bestOfGroup_cons_isSome (r : ProductRow) (rest : List ProductRow) :
    (bestOfGroup (r :: rest)).isSome := by
  simp only [bestOfGroup]
  split
  · rfl
  · split <;> rfl

theorem bestOfGroup_eq_none {l : List ProductRow} :
    bestOfGroup l = none ↔ l = [] := by
  cases l with
  | nil => simp [bestOfGroup]
  | cons r rest =>
    constructor
    · intro h
      have := bestOfGroup_cons_isSome r rest
      rw [h] at this
      simp at this
    · intro h; exact absurd h (by simp)

theorem bestOfGroup_mem {l : List ProductRow} :
    ∀ {b : ProductRow}, bestOfGroup l = some b → b ∈ l := by
  induction l with
  | nil => intro b h; simp [bestOfGroup] at h
  | cons r rest ih =>
    intro b h
    simp only [bestOfGroup] at h
    split at h
    · have hb : r = b := by simpa using h
      subst hb
      exact List.mem_cons_self _ _
    · rename_i b2 hrest
      split at h
      · have hb : b2 = b := by simpa using h
        subst hb
        exact List.mem_cons_of_mem _ (ih hrest)
      · have hb : r = b := by simpa using h
        subst hb
        exact List.mem_cons_self _ _

theorem bestOfGroup_min {l : List ProductRow} :
    ∀ {b : ProductRow}, bestOfGroup l = some b →
      ∀ x ∈ l, ¬ keyLt (rankKey x) (rankKey b) := by
  induction l with
  | nil => intro b h; simp [bestOfGroup] at h
  | cons r rest ih =>
    intro b h
    simp only [bestOfGroup] at h
    split at h
    · rename_i hrest
      have hb : r = b := by simpa using h
      subst hb
      have hre : rest = [] := bestOfGroup_eq_none.mp hrest
      subst hre
      intro x hx
      simp at hx
      subst hx
      exact keyLt_irrefl _
    · rename_i b2 hrest
      split at h
      · rename_i hbr
        have hb : b2 = b := by simpa using h
        subst hb
        intro x hx
        rcases List.mem_cons.mp hx with rfl | hxrest
        · exact keyLt_asymm hbr
        · exact ih hrest x hxrest
      · rename_i hbr
        have hb : r = b := by simpa using h
        subst hb
        intro x hx
        rcases List.mem_cons.mp hx with rfl | hxrest
        · exact keyLt_irrefl _
        · intro hk
          have hnb2 := ih hrest x hxrest
          rcases keyLt_trichotomy (rankKey b2) (rankKey x) with h1 | h1 | h1
          · exact hbr (keyLt_trans h1 hk)
          · rw [← h1] at hk; exact hbr hk
          · exact hnb2 h1

/-- Eligibility is exactly "packed ranking flags below 16": rows with
fitments pack below 12, fitment-less verified rows pack in [12, 16), and
rows failing both pack in [16, 24). -/
theorem eligible_iff_rankFlags (r : ProductRow) :
    eligible r = true ↔ rankFlags r < 16 := by
  obtain ⟨id, oe, nn, sw, se, kl, fo, vp, cv, fd, pr, ps, hf, ts, sp, va, so⟩ := r
  unfold eligible rankFlags
  dsimp only
  cases hf <;> rcases ts with _ | s <;>
    by_cases hnn : nn.isSome <;> by_cases hpr : pr.isSome <;>
    first
      | (by_cases hv : s = "verified" <;> simp [hnn, hpr, hv])
      | simp [hnn, hpr]

/-- In a list whose ids are pairwise distinct, a row is determined by its
id. -/
theorem row_eq_of_id_eq {table : List ProductRow}
    (hids : (table.map ProductRow.id).Nodup)
    {a c : ProductRow} (ha : a ∈ table) (hc : c ∈ table)
    (h : a.id = c.id) : a = c :=
  List.inj_on_of_nodup_map hids ha hc h

/-- Filtering a list by a predicate that holds exactly at one element `b`
occurring once yields `[b]`. -/
theorem filter_eq_singleton {α : Type} [DecidableEq α]
    {p : α → Bool} {l : List α} {b : α}
    (hcnt : l.count b = 1)
    (hp : ∀ x ∈ l, (p x = true ↔ x = b)) : l.filter p = [b] := by
  induction l with
  | nil => simp at hcnt
  | cons a l ih =>
    by_cases hab : a = b
    · subst hab
      rw [List.count_cons_self] at hcnt
      have hl0 : l.count a = 0 := by omega
      have hnotmem : a ∉ l := by
        intro hm
        have := List.count_pos_iff.mpr hm
        omega
      have hpa : p a = true := (hp a (List.mem_cons_self a l)).mpr rfl
      rw [List.filter_cons_of_pos hpa]
      have : l.filter p = [] := by
        rw [List.filter_eq_nil_iff]
        intro x hx
        intro hpx
        have := (hp x (List.mem_cons_of_mem _ hx)).mp hpx
        subst this
        exact hnotmem hx
      rw [this]
    · have hpa : p a = false := by
        rcases hpb : p a with _ | _
        · rfl
        · exact absurd ((hp a (List.mem_cons_self a l)).mp hpb) hab
      rw [List.filter_cons_of_neg (by simp [hpa])]
      have hcnt' : l.count b = 1 := by
        rw [List.count_cons_of_ne (fun h => hab h.symm)] at hcnt
        exact hcnt
      exact ih hcnt' (fun x hx => hp x (List.mem_cons_of_mem _ hx))

/-- C1. The deduplication query of `import_products` selects, for every
part-number (OE-number) group containing an eligible row, exactly one
canonical row: the row ranked best by has-fitments first, then
verified-translation status, then non-null normalized name, then
non-null price, with ties broken by row id (strictly smaller `rankKey`
than every other row of the group).  In particular — see the witness —
of two candidate rows differing only in verification status, the
verified one is selected. -/
theorem dedup_selects_canonical (table : List ProductRow) (oe : String)
    (hids : (table.map ProductRow.id).Nodup)
    (helig : ∃ r ∈ table, r.oe_nummer = oe ∧ eligible r = true) :
    ∃ b ∈ table, b.oe_nummer = oe ∧ eligible b = true ∧
      (canonicalRows table).filter (fun r => r.oe_nummer == oe) = [b] ∧
      ∀ r ∈ table, r.oe_nummer = oe → r ≠ b → keyLt (rankKey b) (rankKey r) := by
  classical
  obtain ⟨r0, hr0mem, hr0oe, hr0elig⟩ := helig
  set g : List ProductRow := table.filter (fun s => s.oe_nummer == oe) with hg
  have hr0g : r0 ∈ g := by
    rw [hg]
    exact List.mem_filter.mpr ⟨hr0mem, by simp [hr0oe]⟩
  have hgne : g ≠ [] := fun h => by rw [h] at hr0g; simp at hr0g
  obtain ⟨b, hb⟩ : ∃ b, bestOfGroup g = some b := by
    cases hbo : bestOfGroup g with
    | none => exact absurd (bestOfGroup_eq_none.mp hbo) hgne
    | some b => exact ⟨b, rfl⟩
  have hbg : b ∈ g := bestOfGroup_mem hb
  have hbmem : b ∈ table := (List.mem_filter.mp hbg).1
  have hboe : b.oe_nummer = oe := by
    have := (List.mem_filter.mp hbg).2
    simpa using this
  have hmin := bestOfGroup_min hb
  -- the best row of a group containing an eligible row is eligible
  have hbelig : eligible b = true := by
    rw [eligible_iff_rankFlags]
    have h0 := hmin r0 hr0g
    rw [eligible_iff_rankFlags] at hr0elig
    unfold keyLt rankKey at h0
    simp only [not_or, not_and, not_lt] at h0
    omega
  -- members of the group are exactly the table rows with this oe
  have hmemg : ∀ r, r ∈ g ↔ (r ∈ table ∧ r.oe_nummer = oe) := by
    intro r
    rw [hg, List.mem_filter]
    simp
  -- id determines the row
  have hinj : ∀ a ∈ table, ∀ c ∈ table, a.id = c.id → a = c :=
    fun a ha c hc h => row_eq_of_id_eq hids ha hc h
  refine ⟨b, hbmem, hboe, hbelig, ?_, ?_⟩
  · -- the filtered canonical stream for this oe is exactly [b]
    unfold canonicalRows
    rw [List.filter_filter]
    apply filter_eq_singleton
    · exact List.count_eq_one_of_mem (List.Nodup.of_map _ hids) hbmem
    · intro x hx
      constructor
      · intro hpx
        simp only [Bool.and_eq_true, beq_iff_eq] at hpx
        obtain ⟨hxoe, hbest, _⟩ := hpx
        have hgx : (table.filter fun s => s.oe_nummer == x.oe_nummer) = g := by
          rw [hg, hxoe]
        rw [hgx, hb] at hbest
        simp only [beq_iff_eq] at hbest
        exact hinj x hx b hbmem hbest.symm
      · intro hxb
        subst hxb
        simp only [Bool.and_eq_true, beq_iff_eq]
        refine ⟨hboe, ?_, hbelig⟩
        have hgx : (table.filter fun s => s.oe_nummer == x.oe_nummer) = g := by
          rw [hg, hboe]
        rw [hgx, hb]
        simp
  · intro r hrmem hroe hrne
    have hrg : r ∈ g := (hmemg r).mpr ⟨hrmem, hroe⟩
    have hnot := hmin r hrg
    rcases keyLt_trichotomy (rankKey b) (rankKey r) with h1 | h1 | h1
    · exact h1
    · exfalso
      have : b.id = r.id := congrArg Prod.snd h1
      exact hrne (hinj r hrmem b hbmem this.symm)
    · exact absurd h1 hnot

/-- Two-row demo table: the rows agree on every data column (fitments
present, no name, no price) and differ only in translation status (and,
necessarily, in row id).  Field order of `ProductRow`: id, oe_nummer,
normalized_name, swedish_translation, skandix_name_eng, kl_namn,
folkrace_namn, vp_namn, cvr_namn, fordon_namn, skandix_price,
part_system, has_fitments, translation_status, skandix_product_id,
vp_artikelnummer, source. -/
def demoR1 : ProductRow :=
  ⟨1, "X", none, none, none, none, none, none, none, none, none, none,
   true, none, none, none, none⟩

/-- Same as `demoR1` but verified, with the larger row id. -/
def demoR2 : ProductRow :=
  ⟨2, "X", none, none, none, none, none, none, none, none, none, none,
   true, some "verified", none, none, none⟩

def demoTable1 : List ProductRow := [demoR1, demoR2]

/-- Witness for C1 at a concrete input: in a group of two candidate rows
differing only in verification status, the dedup query selects exactly
one row, and the direct evaluation in the last conjunct shows it is the
verified one (`demoR2`), although the unverified row has the smaller id. -/
theorem dedup_selects_canonical_witness :
    (demoTable1.map ProductRow.id).Nodup ∧
    (∃ r ∈ demoTable1, r.oe_nummer = "X" ∧ eligible r = true) ∧
    (∃ b ∈ demoTable1, b.oe_nummer = "X" ∧ eligible b = true ∧
      (canonicalRows demoTable1).filter (fun r => r.oe_nummer == "X") = [b] ∧
      ∀ r ∈ demoTable1, r.oe_nummer = "X" → r ≠ b →
        keyLt (rankKey b) (rankKey r)) ∧
    (canonicalRows demoTable1).filter (fun r => r.oe_nummer == "X") = [demoR2] :=
  ⟨by decide, ⟨demoR2, by decide, rfl, rfl⟩,
   dedup_selects_canonical demoTable1 "X" (by decide)
     ⟨demoR2, by decide, rfl, rfl⟩,
   by decide⟩

/-! ## Fitment aggregation (`format_fitments`) -/

/-- A row of `expanded_fitments` for one product (the SQL query already
restricts to `WHERE product_id = ?`, so the product id is not a field
here).  `variant` is selected by the query but never used by the Python
code afterwards. -/
structure FitmentRow where
  model : String
  variant : Option String
  year_from : Option Nat
  year_to : Option Nat
  engine : Option String
  deriving DecidableEq, Repr

/-- Order-preserving de-duplication (first occurrence wins), as SQLite's
`GROUP_CONCAT(DISTINCT x)` produces values in row-visiting order. -/
def dedupKeepFirstAux (seen : List String) : List String → List String
  | [] => []
  | x :: xs =>
    if seen.contains x then dedupKeepFirstAux seen xs
    else x :: dedupKeepFirstAux (x :: seen) xs

def dedupKeepFirst (l : List String) : List String :=
  dedupKeepFirstAux [] l

/-- Python `min` over the non-NULL values (SQL `MIN` ignores NULLs and
is NULL on an empty set). -/
def pyMin : List Nat → Option Nat
  | [] => none
  | x :: xs => some (xs.foldl Nat.min x)

/-- Python `max` over the non-NULL values (SQL `MAX` ignores NULLs). -/
def pyMax : List Nat → Option Nat
  | [] => none
  | x :: xs => some (xs.foldl Nat.max x)

/-- Python `s.split(',')` on the underlying character list. -/
def splitCommaChars : List Char → List (List Char)
  | [] => [[]]
  | c :: cs =>
    if c = ',' then [] :: splitCommaChars cs
    else
      match splitCommaChars cs with
      | [] => [[c]]
      | g :: gs => (c :: g) :: gs

/-- Python `s.split(',')`. -/
def pySplitComma (s : String) : List String :=
  (splitCommaChars s.data).map String.mk

/-- Python `s.strip()`: remove leading and trailing whitespace. -/
def pyStrip (s : String) : String :=
  String.mk (((s.data.dropWhile Char.isWhitespace).reverse.dropWhile
    Char.isWhitespace).reverse)

/-- SQLite binary (codepoint) comparison of strings, used by
`ORDER BY model`. -/
def charListLe : List Char → List Char → Bool
  | [], _ => true
  | _ :: _, [] => false
  | a :: as, b :: bs =>
    if a.toNat < b.toNat then true
    else if b.toNat < a.toNat then false
    else charListLe as bs

def strLe (a b : String) : Bool :=
  charListLe a.data b.data

/-- Stable insertion of `x` into `l`: `x` goes before the first element
it compares `le` to, so equal keys keep their original relative order. -/
def insertByLe {α : Type} (le : α → α → Bool) (x : α) : List α → List α
  | [] => [x]
  | y :: ys => if le x y then x :: y :: ys else y :: insertByLe le x ys

/-- Stable insertion sort by a boolean `le` comparison. -/
def sortByLe {α : Type} (le : α → α → Bool) : List α → List α
  | [] => []
  | x :: xs => insertByLe le x (sortByLe le xs)

/-- The distinct models of the product's fitment rows, in ascending
order (`GROUP BY model ORDER BY model`). -/
def modelsOf (rows : List FitmentRow) : List String :=
  sortByLe strLe (dedupKeepFirst (rows.map FitmentRow.model))

/-- The `engines` column for one model group followed by the Python
post-processing of lines 91–92: `GROUP_CONCAT(DISTINCT engine)` (skip
NULLs, de-duplicate keeping row order, join with `,`; the result is NULL
— falsy — when every engine is NULL), then
`engines.split(',') if engines else []` and
`[e.strip() for e in engine_list if e and e != 'NULL']`. -/
def enginesOf (rs : List FitmentRow) : List String :=
  let distinct := dedupKeepFirst (rs.filterMap FitmentRow.engine)
  let concatenated := String.intercalate "," distinct
  let engine_list := if concatenated = "" then [] else pySplitComma concatenated
  (engine_list.filter (fun e => e ≠ "" && e ≠ "NULL")).map pyStrip

/-- The year-range segment of a fitment line: rendered only when both
the group's `MIN(year_from)` and `MAX(year_to)` are truthy
(non-NULL and non-zero): Python `if year_start and year_end`. -/
def yearSegment (year_start year_end : Option Nat) : String :=
  if truthyNat year_start && truthyNat year_end then
    " " ++ toString (year_start.getD 0) ++ "-" ++ toString (year_end.getD 0)
  else ""

/-- The engine-list segment of a fitment line: at most the first five
engines, comma-joined in parentheses; omitted when the list is empty
(Python `if engine_list`). -/
def engineSegment (engine_list : List String) : String :=
  if engine_list.isEmpty then ""
  else " (" ++ String.intercalate ", " (engine_list.take 5) ++ ")"

/-- The `line` variable of `format_fitments` for one model group:
`"Volvo {model}"`, then the year range, then the engine list. -/
def fitmentLine (model : String) (year_start year_end : Option Nat)
    (engine_list : List String) : String :=
  "Volvo " ++ model ++ yearSegment year_start year_end
    ++ engineSegment engine_list

/-- `format_fitments`: empty string when the product has no fitment
rows; otherwise a `"Passar till:"` header followed by one `"- "`
prefixed line per model (groups ordered by model), each line built from
the group's `MIN(year_from)`, `MAX(year_to)` and distinct engines. -/
def format_fitments (rows : List FitmentRow) : String :=
  if rows.isEmpty then ""
  else
    String.intercalate "\n"
      ("Passar till:" ::
        (modelsOf rows).map (fun m =>
          let g := rows.filter (fun r => r.model == m)
          "- " ++ fitmentLine m (pyMin (g.filterMap FitmentRow.year_from))
            (pyMax (g.filterMap FitmentRow.year_to)) (enginesOf g)))

/-- The two fitment rows of the spec's worked example, plus a third row
with a duplicated engine code used to exhibit order-preserving
de-duplication.  Field order of `FitmentRow`: model, variant,
year_from, year_to, engine. -/
def demoFitment1 : FitmentRow := ⟨"740", some "GL", some 1985, some 1987, some "B200"⟩

def demoFitment2 : FitmentRow := ⟨"740", some "GLE", some 1988, some 1992, some "B230"⟩

def demoFitment3 : FitmentRow := ⟨"740", some "Turbo", some 1986, some 1990, some "B200"⟩

/-- C2.  Fitment aggregation: a product with no fitment rows yields the
empty string; the worked example — model `740` rows `(1985, 1987, B200)`
and `(1988, 1992, B230)` — is grouped into the single line
`Volvo 740 1985-1992 (B200, B230)` (emitted under the `Passar till:`
header with a `- ` bullet); engine de-duplication is order-preserving
(the extra `B200` row changes nothing); and a line never renders more
than the first five engine codes. -/
theorem fitment_aggregation_spec :
    format_fitments [] = "" ∧
    fitmentLine "740" (some 1985) (some 1992) ["B200", "B230"]
      = "Volvo 740 1985-1992 (B200, B230)" ∧
    format_fitments [demoFitment1, demoFitment2]
      = "Passar till:\n- Volvo 740 1985-1992 (B200, B230)" ∧
    format_fitments [demoFitment1, demoFitment2, demoFitment3]
      = "Passar till:\n- Volvo 740 1985-1992 (B200, B230)" ∧
    (∀ (m : String) (ys ye : Option Nat) (engs : List String),
      fitmentLine m ys ye engs = fitmentLine m ys ye (engs.take 5)) := by
  refine ⟨by decide, by decide, by decide, by decide, ?_⟩
  intro m ys ye engs
  unfold fitmentLine engineSegment
  cases engs with
  | nil => rfl
  | cons e es => simp [List.take_take]

/-- C9.  In a rendered fitment line the year range appears exactly when
both the group's minimum year-from and maximum year-to are present and
non-zero (Python truthiness of `if year_start and year_end`): if either
is missing or zero the line is exactly the model name plus the engine
segment, and if both are truthy the line differs from that. -/
theorem year_range_omission (m : String) (ys ye : Option Nat)
    (engs : List String) :
    ((truthyNat ys = false ∨ truthyNat ye = false) →
      fitmentLine m ys ye engs = "Volvo " ++ m ++ engineSegment engs) ∧
    (truthyNat ys = true → truthyNat ye = true →
      fitmentLine m ys ye engs ≠ "Volvo " ++ m ++ engineSegment engs) := by
  constructor
  · intro h
    unfold fitmentLine yearSegment
    rcases h with h | h <;> rw [h] <;> simp
  · intro hys hye heq
    unfold fitmentLine yearSegment at heq
    rw [hys, hye] at heq
    simp only [Bool.and_self, if_true] at heq
    have hlen := congrArg String.length heq
    simp [String.length_append] at hlen
    exact absurd hlen.1.1.1 (by decide)

/-- Witness for C9: with a missing year-from, the `740` line omits the
year range but still renders the model name and the engine list. -/
theorem year_range_omission_witness :
    truthyNat (none : Option Nat) = false ∧
    fitmentLine "740" none (some 1992) ["B200"]
      = "Volvo " ++ "740" ++ engineSegment ["B200"] :=
  ⟨rfl, (year_range_omission "740" none (some 1992) ["B200"]).1 (Or.inl rfl)⟩

/-! ## Variant collection and chunk rendering
(`get_product_variants`, `create_chunk`) -/

/-- The projection of a product row selected by `get_product_variants`
(`SELECT id, skandix_product_id, vp_artikelnummer, normalized_name,
skandix_name_eng, skandix_price, source`). -/
structure Variant where
  id : Nat
  skandix_product_id : Option String
  vp_artikelnummer : Option String
  normalized_name : Option String
  skandix_name_eng : Option String
  skandix_price : Option Nat
  source : Option String
  deriving DecidableEq, Repr

def toVariant (r : ProductRow) : Variant :=
  ⟨r.id, r.skandix_product_id, r.vp_artikelnummer, r.normalized_name,
   r.skandix_name_eng, r.skandix_price, r.source⟩

/-- Sort key of `ORDER BY has_fitments DESC, skandix_price ASC`: fitments
first, then price ascending with NULL prices first (SQLite sorts NULL
below every value in ascending order). -/
def vKey (r : ProductRow) : Nat × Nat × Nat :=
  (if r.has_fitments then 0 else 1,
   match r.skandix_price with | none => 0 | some _ => 1,
   r.skandix_price.getD 0)

/-- Lexicographic non-strict comparison of variant sort keys. -/
def vLe (a b : Nat × Nat × Nat) : Bool :=
  decide (a.1 < b.1) ||
    (a.1 == b.1 &&
      (decide (a.2.1 < b.2.1) ||
        (a.2.1 == b.2.1 && decide (a.2.2 ≤ b.2.2))))

/-- `get_product_variants`: every row of the table sharing the given
OE-number that passes the eligibility filter, ordered by
`has_fitments DESC, skandix_price ASC` (stably, keeping table order on
equal keys), projected to the selected columns. -/
def get_product_variants (oe : String) (table : List ProductRow) :
    List Variant :=
  (sortByLe (fun r s => vLe (vKey r) (vKey s))
    (table.filter (fun r => r.oe_nummer == oe && eligible r))).map toVariant

/-- Python truthiness of `v['skandix_price']`: `None` and `0` are falsy. -/
def priceTruthy : Option Nat → Bool
  | none => false
  | some p => p != 0

/-- The `prices` list of `create_chunk` line 189:
`[v['skandix_price'] for v in variants if v['skandix_price']]`. -/
def pricesOf (vs : List Variant) : List Nat :=
  vs.filterMap (fun v =>
    match v.skandix_price with
    | none => none
    | some p => if p = 0 then none else some p)

/-- Python `f"{x:.2f}"` for a non-negative price held in öre
(hundredths of SEK). -/
def fmtOre (p : Nat) : String :=
  toString (p / 100) ++ "." ++ (if p % 100 < 10 then "0" else "")
    ++ toString (p % 100)

/-- Python `min` of a non-empty list (the `[]` default is unreachable at
its call sites, which are guarded by non-emptiness). -/
def pyMinD : List Nat → Nat
  | [] => 0
  | x :: xs => xs.foldl Nat.min x

/-- The price summary of `create_chunk` lines 188–196: for the variant
group, `"Pris saknas"` when no variant has a truthy price, the single
two-decimal value with the `SEK` suffix when exactly one does, and
`"Från <min> SEK (finns <len(variants)> varianter)"` — note: the count
is the number of variants, not of priced variants — when more than one
does. -/
def price_summary (variants : List Variant) : String :=
  let prices := pricesOf variants
  if prices.isEmpty then "Pris saknas"
  else if 1 < prices.length then
    "Från " ++ fmtOre (pyMinD prices) ++ " SEK (finns "
      ++ toString variants.length ++ " varianter)"
  else fmtOre (prices.headD 0) ++ " SEK"

/-- Demo variants.  Field order of `Variant`: id, skandix_product_id,
vp_artikelnummer, normalized_name, skandix_name_eng, skandix_price,
source.  Prices are in öre. -/
def demoVarNoPrice : Variant := ⟨10, none, none, none, none, none, none⟩

def demoVar19950 : Variant := ⟨11, none, none, none, none, some 19950, none⟩

def demoVar10000 : Variant := ⟨12, none, none, none, none, some 10000, none⟩

def demoVar15000 : Variant := ⟨13, none, none, none, none, some 15000, none⟩

def demoVars3 : List Variant := [demoVar10000, demoVar15000, demoVarNoPrice]

/-- C3.  The price summary of a chunk: the sentinel `"Pris saknas"` when
no variant in the group has a known (truthy) price; `"199.50 SEK"` for a
single variant priced 199.50; and
`"Från 100.00 SEK (finns 2 varianter)"` for two variants priced 100 and
150. -/
theorem price_summary_spec :
    (∀ vs : List Variant,
      (∀ v ∈ vs, priceTruthy v.skandix_price = false) →
        price_summary vs = "Pris saknas") ∧
    price_summary [demoVar19950] = "199.50 SEK" ∧
    price_summary [demoVar10000, demoVar15000]
      = "Från 100.00 SEK (finns 2 varianter)" := by
  refine ⟨?_, by decide, by decide⟩
  intro vs h
  have hnil : pricesOf vs = [] := by
    rw [pricesOf, List.filterMap_eq_nil_iff]
    intro v hv
    have hfalse := h v hv
    cases hp : v.skandix_price with
    | none => rfl
    | some p =>
      rw [hp] at hfalse
      simp [priceTruthy] at hfalse
      simp [hfalse]
  simp [price_summary, hnil]

/-- Witness for C3: the group with a single unpriced variant renders the
missing-price sentinel. -/
theorem price_summary_spec_witness :
    (∀ v ∈ [demoVarNoPrice], priceTruthy v.skandix_price = false) ∧
    price_summary [demoVarNoPrice] = "Pris saknas" :=
  ⟨by decide, price_summary_spec.1 [demoVarNoPrice] (by decide)⟩

/-- C10.  When more than one variant of the group has a truthy price,
the count `N` in `"Från <min> SEK (finns N varianter)"` is the total
number of variants in the group — priced or not — so it can strictly
exceed the number of priced variants (the witness exhibits 3 variants,
2 of them priced, rendering `finns 3 varianter`). -/
theorem variant_count_in_price_summary (vs : List Variant)
    (h : 1 < (pricesOf vs).length) :
    ∃ m, price_summary vs
      = "Från " ++ fmtOre m ++ " SEK (finns " ++ toString vs.length
        ++ " varianter)" := by
  refine ⟨pyMinD (pricesOf vs), ?_⟩
  cases hp : pricesOf vs with
  | nil => rw [hp] at h; simp at h
  | cons p ps =>
    rw [hp] at h
    simp only [price_summary, hp]
    rw [if_neg (by simp), if_pos h]

/-- Witness for C10: three variants, two priced (100 SEK and 150 SEK),
render a summary counting all three. -/
theorem variant_count_in_price_summary_witness :
    1 < (pricesOf demoVars3).length ∧
    (pricesOf demoVars3).length = 2 ∧ demoVars3.length = 3 ∧
    (∃ m, price_summary demoVars3
      = "Från " ++ fmtOre m ++ " SEK (finns " ++ toString demoVars3.length
        ++ " varianter)") :=
  ⟨by decide, by decide, by decide,
   variant_count_in_price_summary demoVars3 (by decide)⟩

/-- Python `needle in hay` on character lists: prefix check. -/
def isPrefixChars : List Char → List Char → Bool
  | [], _ => true
  | _ :: _, [] => false
  | a :: as, b :: bs => a == b && isPrefixChars as bs

/-- Python `needle in hay` on character lists: substring check. -/
def isInfixChars (needle : List Char) : List Char → Bool
  | [] => isPrefixChars needle []
  | c :: cs => isPrefixChars needle (c :: cs) || isInfixChars needle cs

/-- Python `needle in hay` for strings (substring containment). -/
def pyInStr (needle hay : String) : Bool :=
  isInfixChars needle.data hay.data

/-- `names.append(x)` guarded by Python truthiness of `x`
(`get_all_names` lines 53–55). -/
def appendIfTruthy (names : List String) (x : Option String) : List String :=
  match x with
  | none => names
  | some s => if s = "" then names else names ++ [s]

/-- `if row[field] and row[field] not in names: names.append(row[field])`
(`get_all_names` lines 58–60). -/
def appendIfNew (names : List String) (x : Option String) : List String :=
  match x with
  | none => names
  | some s =>
    if s = "" then names
    else if names.contains s then names
    else names ++ [s]

/-- `get_all_names`: the three primary name columns (appended when
truthy, duplicates allowed), then the five source-specific name columns
(appended when truthy and new), finally filtered to non-trivial names
(truthy, not the literal `"NULL"`, longer than 3 characters). -/
def get_all_names (row : ProductRow) : List String :=
  let names := appendIfTruthy [] row.normalized_name
  let names := appendIfTruthy names row.swedish_translation
  let names := appendIfTruthy names row.skandix_name_eng
  let names :=
    [row.kl_namn, row.folkrace_namn, row.vp_namn, row.cvr_namn,
     row.fordon_namn].foldl appendIfNew names
  names.filter (fun n => n != "" && n != "NULL" && decide (3 < n.length))

/-- The metadata mapping attached to each chunk
(`create_chunk` lines 223–236). -/
structure Metadata where
  product_id : Nat
  oe_nummer : String
  part_system : String
  price_from : Option Nat
  price_to : Option Nat
  variant_count : Nat
  variant_ids : List Nat
  skandix_ids : List String
  vp_ids : List String
  has_fitments : Bool
  source : Option String
  verified : Bool
  deriving DecidableEq, Repr

/-- The unit of output: title, rendered text body, metadata. -/
structure Chunk where
  title : String
  content : String
  metadata : Metadata
  deriving DecidableEq, Repr

/-- One numbered line of the `TILLGÄNGLIGA VARIANTER` section
(`create_chunk` lines 174–186), from a 1-based index and a variant. -/
def variantLine (numbered : Nat × Variant) : String :=
  let var := numbered.2
  let var_name := strOr var.normalized_name (strOr var.skandix_name_eng "Variant")
  let var_price :=
    match var.skandix_price with
    | none => "Pris saknas"
    | some p => if p = 0 then "Pris saknas" else fmtOre p ++ " SEK"
  let var_ids :=
    (match var.skandix_product_id with
     | none => []
     | some s => if s = "" then [] else ["Skandix " ++ s]) ++
    (match var.vp_artikelnummer with
     | none => []
     | some s => if s = "" then [] else ["VP " ++ s])
  let id_str :=
    if var_ids.isEmpty then ""
    else " (" ++ String.intercalate ", " var_ids ++ ")"
  "\n" ++ toString numbered.1 ++ ". " ++ var_name ++ " - " ++ var_price
    ++ id_str

/-- `create_chunk`: builds the rendered content (name, alternative
names, identifiers, category, price, variant listing, fitments,
alternative-name sources, English name when not already shown) and the
metadata record for the canonical row, collecting all variants of its
OE-number from the table. -/
def create_chunk (row : ProductRow) (fitments alt_names : String)
    (table : List ProductRow) : Chunk :=
  let primary_name :=
    strOr row.normalized_name (strOr row.swedish_translation
      (strOr row.skandix_name_eng "Okänd produkt"))
  let all_names := get_all_names row
  let names_section :=
    if all_names.isEmpty then primary_name
    else String.intercalate " / " (all_names.take 5)
  let oe_section := "OE-nummer: " ++ row.oe_nummer ++
    (match row.vp_artikelnummer with
     | none => ""
     | some s => if s = "" then "" else ", VP: " ++ s)
  let system := strOr row.part_system "allmänt"
  let variants := get_product_variants row.oe_nummer table
  let variants_section :=
    if 1 < variants.length then
      "\n\nTILLGÄNGLIGA VARIANTER:"
        ++ String.join ((List.enumFrom 1 variants).map variantLine)
    else ""
  let prices := pricesOf variants
  let price := price_summary variants
  let content_parts : List String :=
    ["PRODUKTNAMN: " ++ primary_name,
     "ALTERNATIVA NAMN: " ++ names_section,
     "OE-NUMMER: " ++ oe_section,
     "SYSTEM: " ++ system,
     "PRIS: " ++ price] ++
    (if variants_section = "" then [] else [variants_section]) ++
    (if fitments = "" then [] else ["\n" ++ fitments]) ++
    (if alt_names = "" then [] else ["\n" ++ alt_names]) ++
    (match row.skandix_name_eng with
     | none => []
     | some s =>
       if s = "" then []
       else if pyInStr s names_section then []
       else ["\nEngelsk benämning: " ++ s])
  let content := String.intercalate "\n" content_parts
  let metadata : Metadata :=
    ⟨row.id, row.oe_nummer, system, pyMin prices, pyMax prices,
     variants.length, variants.map Variant.id,
     variants.filterMap (fun v =>
       match v.skandix_product_id with
       | none => none
       | some s => if s = "" then none else some s),
     variants.filterMap (fun v =>
       match v.vp_artikelnummer with
       | none => none
       | some s => if s = "" then none else some s),
     row.has_fitments, row.source,
     row.translation_status == some "verified"⟩
  ⟨primary_name, content, metadata⟩

/-! ### Lemmas about the stable sort and the price bounds -/

theorem mem_insertByLe {α : Type} (le : α → α → Bool) (x y : α)
    (l : List α) : y ∈ insertByLe le x l ↔ y = x ∨ y ∈ l := by
  induction l with
  | nil => simp [insertByLe]
  | cons a l ih =>
    simp only [insertByLe]
    split
    · simp
    · simp only [List.mem_cons, ih]
      tauto

theorem mem_sortByLe {α : Type} (le : α → α → Bool) (y : α)
    (l : List α) : y ∈ sortByLe le l ↔ y ∈ l := by
  induction l with
  | nil => simp [sortByLe]
  | cons a l ih =>
    simp only [sortByLe, mem_insertByLe, ih, List.mem_cons]

theorem pyMin_eq_none {l : List Nat} : pyMin l = none ↔ l = [] := by
  cases l <;> simp [pyMin]

theorem pyMax_eq_none {l : List Nat} : pyMax l = none ↔ l = [] := by
  cases l <;> simp [pyMax]

/-- C6.  For every chunk, the metadata field `variant_ids` contains the
canonical row's own id (the canonical row passes the eligibility filter,
so it is among its own OE-number's variants), and `price_from` and
`price_to` are both null exactly when no variant in the group has a
known (truthy) price. -/
theorem chunk_metadata_invariant (table : List ProductRow)
    (row : ProductRow) (fitments alt_names : String)
    (hmem : row ∈ table) (helig : eligible row = true) :
    row.id ∈ (create_chunk row fitments alt_names table).metadata.variant_ids ∧
    (((create_chunk row fitments alt_names table).metadata.price_from = none ∧
      (create_chunk row fitments alt_names table).metadata.price_to = none) ↔
      ∀ v ∈ get_product_variants row.oe_nummer table,
        priceTruthy v.skandix_price = false) := by
  have hvids : (create_chunk row fitments alt_names table).metadata.variant_ids
      = (get_product_variants row.oe_nummer table).map Variant.id := rfl
  have hpf : (create_chunk row fitments alt_names table).metadata.price_from
      = pyMin (pricesOf (get_product_variants row.oe_nummer table)) := rfl
  have hpt : (create_chunk row fitments alt_names table).metadata.price_to
      = pyMax (pricesOf (get_product_variants row.oe_nummer table)) := rfl
  constructor
  · rw [hvids]
    have hfilter : row ∈ table.filter
        (fun r => r.oe_nummer == row.oe_nummer && eligible r) :=
      List.mem_filter.mpr ⟨hmem, by simp [helig]⟩
    have hsorted : row ∈ sortByLe (fun r s => vLe (vKey r) (vKey s))
        (table.filter (fun r => r.oe_nummer == row.oe_nummer && eligible r)) :=
      (mem_sortByLe _ _ _).mpr hfilter
    have hvar : toVariant row ∈ get_product_variants row.oe_nummer table :=
      List.mem_map_of_mem _ hsorted
    exact List.mem_map.mpr ⟨toVariant row, hvar, rfl⟩
  · rw [hpf, hpt]
    constructor
    · intro ⟨h1, _⟩ v hv
      have hnil : pricesOf (get_product_variants row.oe_nummer table) = [] :=
        pyMin_eq_none.mp h1
      rw [pricesOf, List.filterMap_eq_nil_iff] at hnil
      have := hnil v hv
      cases hp : v.skandix_price with
      | none => rfl
      | some p =>
        rw [hp] at this
        have hp0 : p = 0 := by
          by_contra hne
          simp [hne] at this
        simp [priceTruthy, hp0]
    · intro h
      have hnil : pricesOf (get_product_variants row.oe_nummer table) = [] := by
        rw [pricesOf, List.filterMap_eq_nil_iff]
        intro v hv
        have hfalse := h v hv
        cases hp : v.skandix_price with
        | none => rfl
        | some p =>
          rw [hp] at hfalse
          simp [priceTruthy] at hfalse
          simp [hfalse]
      rw [hnil]
      exact ⟨pyMin_eq_none.mpr rfl, pyMax_eq_none.mpr rfl⟩

/-- Witness for C6 at a concrete input: the canonical row `demoR2` of
`demoTable1` is eligible, and the theorem's conclusion holds for its
chunk. -/
theorem chunk_metadata_invariant_witness :
    demoR2 ∈ demoTable1 ∧ eligible demoR2 = true ∧
    (demoR2.id ∈ (create_chunk demoR2 "" "" demoTable1).metadata.variant_ids ∧
    (((create_chunk demoR2 "" "" demoTable1).metadata.price_from = none ∧
      (create_chunk demoR2 "" "" demoTable1).metadata.price_to = none) ↔
      ∀ v ∈ get_product_variants demoR2.oe_nummer demoTable1,
        priceTruthy v.skandix_price = false)) :=
  ⟨by decide, rfl,
   chunk_metadata_invariant demoTable1 demoR2 "" "" (by decide) rfl⟩

/-- C5.  A product row with no fitments and a translation status other
than `'verified'` fails the eligibility filter of both the main query
and `get_product_variants`: it is never selected as canonical and its id
never appears among the variants of any chunk, whatever its ranking
within its group. -/
theorem ineligible_rows_excluded (table : List ProductRow)
    (r : ProductRow)
    (hfit : r.has_fitments = false)
    (hver : r.translation_status ≠ some "verified")
    (hid : ∀ s ∈ table, s.id = r.id → s = r) :
    r ∉ canonicalRows table ∧
    ∀ oe, r.id ∉ (get_product_variants oe table).map Variant.id := by
  have hineg : eligible r = false := by
    unfold eligible
    rw [hfit]
    simp only [Bool.false_or, beq_eq_false_iff_ne, ne_eq]
    exact hver
  constructor
  · intro hmem
    have hpred := (List.mem_filter.mp hmem).2
    simp only [Bool.and_eq_true] at hpred
    rw [hineg] at hpred
    exact absurd hpred.2 (by simp)
  · intro oe hmem
    rw [List.mem_map] at hmem
    obtain ⟨v, hv, hvid⟩ := hmem
    unfold get_product_variants at hv
    rw [List.mem_map] at hv
    obtain ⟨s, hs, hsv⟩ := hv
    rw [mem_sortByLe] at hs
    have hsf := List.mem_filter.mp hs
    have hselig : eligible s = true := by
      have hpred := hsf.2
      simp only [Bool.and_eq_true] at hpred
      exact hpred.2
    have hsid : s.id = r.id := by rw [← hvid, ← hsv]; rfl
    rw [hid s hsf.1 hsid] at hselig
    rw [hineg] at hselig
    exact absurd hselig (by simp)

/-- An ineligible row that is nevertheless the best-ranked (indeed only)
row of its group: it has a normalized name and a price, but no fitments
and an unverified translation. -/
def demoRBad : ProductRow :=
  ⟨3, "Y", some "Bromsskiva fram", none, none, none, none, none, none,
   none, some 24900, none, false, some "pending", none, none, none⟩

/-- Witness for C5: `demoRBad` is the best-ranked row of its
single-member group, yet it is excluded both from the canonical rows and
from every variant list. -/
theorem ineligible_rows_excluded_witness :
    demoRBad.has_fitments = false ∧
    demoRBad.translation_status ≠ some "verified" ∧
    (∀ s ∈ [demoRBad], s.id = demoRBad.id → s = demoRBad) ∧
    (demoRBad ∉ canonicalRows [demoRBad] ∧
     ∀ oe, demoRBad.id ∉ (get_product_variants oe [demoRBad]).map Variant.id) :=
  ⟨rfl, by decide, by decide,
   ineligible_rows_excluded [demoRBad] demoRBad rfl (by decide) (by decide)⟩

/-! ## Embedding batching, the processing loop, the sink write and the
cost estimate (`generate_embeddings`, `import_products`,
`insert_to_supabase`) -/

/-- A chunk after the embedding step.  The vector type is abstract; the
field is `Option` because Python's `response.data[i]` lookup is partial
(an out-of-range index raises). -/
structure EmbChunk (V : Type) where
  chunk : Chunk
  embedding : Option V
  deriving DecidableEq, Repr

/-- The attachment loop of `generate_embeddings` lines 260–261:
`for i, chunk in enumerate(chunks): chunk['embedding'] =
response.data[i].embedding` — positional pairing; a too-short response,
where Python would raise `IndexError`, leaves `none`. -/
def attachEmb {V : Type} : List Chunk → List V → List (EmbChunk V)
  | [], _ => []
  | c :: cs, [] => ⟨c, none⟩ :: attachEmb cs []
  | c :: cs, v :: vs => ⟨c, some v⟩ :: attachEmb cs vs

/-- `generate_embeddings`: one API call carrying every batch member's
rendered text, in order; the returned vectors are attached by positional
index. -/
def generate_embeddings {V : Type} (chunks : List Chunk)
    (api : List String → List V) : List (EmbChunk V) :=
  attachEmb chunks (api (chunks.map Chunk.content))

/-- `BATCH_SIZE = 100  # Embeddings per batch` -/
def BATCH_SIZE : Nat := 100

/-- The batching loop of `import_products` lines 359–386: append each
chunk to the current batch; when the batch reaches `B` elements flush it
and start an empty one.  Returns the flushed batches and the residual
`batch_chunks` list left after the loop (which, per lines 389–394, is
flushed too when non-empty, but — deliberately — never reset). -/
def loopGo {α : Type} (B : Nat) : List α → List α → List (List α) × List α
  | [], cur => ([], cur)
  | c :: rest, cur =>
    if B ≤ (cur ++ [c]).length then
      ((cur ++ [c]) :: (loopGo B rest []).1, (loopGo B rest []).2)
    else loopGo B rest (cur ++ [c])

def processLoop {α : Type} (l : List α) (B : Nat) :
    List (List α) × List α :=
  loopGo B l []

/-- All batches flushed during a run: the full in-loop batches plus the
final undersized batch when it is non-empty. -/
def allBatches {α : Type} (l : List α) (B : Nat) : List (List α) :=
  (processLoop l B).1 ++
    (if (processLoop l B).2.isEmpty then [] else [(processLoop l B).2])

theorem attachEmb_map {V : Type} (h : Chunk → V) :
    ∀ cs : List Chunk,
      attachEmb cs (cs.map h) = cs.map (fun c => ⟨c, some (h c)⟩) := by
  intro cs
  induction cs with
  | nil => rfl
  | cons c cs ih => simp only [List.map_cons, attachEmb, ih]

/-- When the embedding API honours its contract (a same-length,
same-order response), every chunk of the batch receives the vector of
its own text. -/
theorem generate_embeddings_spec {V : Type} (api : List String → List V)
    (f : String → V) (hapi : ∀ ts, api ts = ts.map f) (b : List Chunk) :
    generate_embeddings b api
      = b.map (fun c => ⟨c, some (f c.content)⟩) := by
  unfold generate_embeddings
  rw [hapi, List.map_map]
  exact attachEmb_map _ b

/-- Shape of the batching loop: starting from a partial batch of fewer
than `B` chunks, the flushed batches all have exactly `B` elements, the
residual holds the remainder, and concatenating everything restores the
input stream in order. -/
theorem loopGo_spec {α : Type} (B : Nat) (hB : 0 < B) :
    ∀ (l cur : List α), cur.length < B →
      ((loopGo B l cur).1.map List.length
          = List.replicate ((cur.length + l.length) / B) B) ∧
      ((loopGo B l cur).2.length = (cur.length + l.length) % B) ∧
      ((loopGo B l cur).1.flatten ++ (loopGo B l cur).2 = cur ++ l) := by
  intro l
  induction l with
  | nil =>
    intro cur hcur
    simp [loopGo, Nat.div_eq_of_lt hcur, Nat.mod_eq_of_lt hcur]
  | cons c rest ih =>
    intro cur hcur
    simp only [loopGo]
    by_cases hfull : B ≤ (cur ++ [c]).length
    · rw [if_pos hfull]
      have hlen : (cur ++ [c]).length = B := by
        simp only [List.length_append, List.length_cons, List.length_nil]
        simp only [List.length_append, List.length_cons, List.length_nil] at hfull
        omega
      obtain ⟨ih1, ih2, ih3⟩ := ih [] hB
      simp only [List.length_nil, Nat.zero_add] at ih1 ih2 ih3
      have htot : cur.length + (c :: rest).length = rest.length + B := by
        simp only [List.length_append, List.length_cons, List.length_nil] at hlen
        simp only [List.length_cons]
        omega
      refine ⟨?_, ?_, ?_⟩
      · simp only [List.map_cons, ih1, hlen, htot, Nat.add_div_right _ hB,
          List.replicate_succ]
      · rw [ih2, htot, Nat.add_mod_right]
      · simp only [List.flatten_cons, List.append_assoc, ih3]
        simp
    · rw [if_neg hfull]
      have hlt : (cur ++ [c]).length < B := by
        simp only [List.length_append, List.length_cons, List.length_nil] at hfull ⊢
        omega
      obtain ⟨ih1, ih2, ih3⟩ := ih (cur ++ [c]) hlt
      have harith : cur.length + (c :: rest).length
          = (cur ++ [c]).length + rest.length := by
        simp only [List.length_append, List.length_cons, List.length_nil]
        omega
      refine ⟨?_, ?_, ?_⟩
      · rw [harith]; exact ih1
      · rw [harith]; exact ih2
      · rw [ih3]; simp

/-- C4.  With batch size 100, a run over 250 chunks issues exactly 3
embedding requests, of 100, 100 and 50 chunks; concatenating the batches
restores the input in order; and, whenever the API returns a same-length
same-order response (`api ts = ts.map f`), every chunk of every batch
receives the vector computed from its own rendered text. -/
theorem batch_flush_spec {V : Type} (chunks : List Chunk)
    (api : List String → List V) (f : String → V)
    (hlen : chunks.length = 250)
    (hapi : ∀ ts, api ts = ts.map f) :
    (allBatches chunks BATCH_SIZE).length = 3 ∧
    (allBatches chunks BATCH_SIZE).map List.length = [100, 100, 50] ∧
    (allBatches chunks BATCH_SIZE).flatten = chunks ∧
    ∀ b ∈ allBatches chunks BATCH_SIZE,
      generate_embeddings b api = b.map (fun c => ⟨c, some (f c.content)⟩) := by
  have hpl : loopGo BATCH_SIZE chunks [] = processLoop chunks BATCH_SIZE := rfl
  obtain ⟨h1, h2, h3⟩ :=
    loopGo_spec (α := Chunk) BATCH_SIZE (by decide) chunks [] (by decide)
  rw [hpl] at h1 h2 h3
  simp only [List.length_nil, Nat.zero_add, hlen] at h1 h2 h3
  have e1 : (250 : Nat) / BATCH_SIZE = 2 := rfl
  have e2 : (250 : Nat) % BATCH_SIZE = 50 := rfl
  rw [e1] at h1
  rw [e2] at h2
  have hres : (processLoop chunks BATCH_SIZE).2.isEmpty = false := by
    rcases hl : (processLoop chunks BATCH_SIZE).2 with _ | ⟨a, as⟩
    · rw [hl] at h2; simp at h2
    · rfl
  have hall : allBatches chunks BATCH_SIZE
      = (processLoop chunks BATCH_SIZE).1 ++ [(processLoop chunks BATCH_SIZE).2] := by
    unfold allBatches
    rw [hres]
    simp
  have hmap : (allBatches chunks BATCH_SIZE).map List.length = [100, 100, 50] := by
    rw [hall, List.map_append, h1]
    simp only [List.map_cons, List.map_nil, h2]
    rfl
  refine ⟨?_, hmap, ?_, ?_⟩
  · have := congrArg List.length hmap
    simpa using this
  · rw [hall]
    simp only [List.flatten_append, List.flatten_cons, List.flatten_nil,
      List.append_nil]
    exact h3
  · intro b _
    exact generate_embeddings_spec api f hapi b

/-- Concrete demo chunk whose content has length 4 (one estimated
token).  Metadata field order: product_id, oe_nummer, part_system,
price_from, price_to, variant_count, variant_ids, skandix_ids, vp_ids,
has_fitments, source, verified. -/
def demoChunk : Chunk :=
  ⟨"t", "xxxx", ⟨0, "X", "allmänt", none, none, 0, [], [], [], true, none, false⟩⟩

/-- A demo embedding API obeying the same-length same-order contract:
it returns each text's length. -/
def demoApi (ts : List String) : List Nat :=
  ts.map String.length

/-- Witness for C4: a concrete run of 250 chunks through the loop with
the demo API. -/
theorem batch_flush_spec_witness :
    (List.replicate 250 demoChunk).length = 250 ∧
    (∀ ts, demoApi ts = ts.map String.length) ∧
    ((allBatches (List.replicate 250 demoChunk) BATCH_SIZE).length = 3 ∧
     (allBatches (List.replicate 250 demoChunk) BATCH_SIZE).map List.length
       = [100, 100, 50] ∧
     (allBatches (List.replicate 250 demoChunk) BATCH_SIZE).flatten
       = List.replicate 250 demoChunk ∧
     ∀ b ∈ allBatches (List.replicate 250 demoChunk) BATCH_SIZE,
       generate_embeddings b demoApi
         = b.map (fun c => ⟨c, some (String.length c.content)⟩)) :=
  ⟨by rw [List.length_replicate], fun ts => rfl,
   batch_flush_spec (List.replicate 250 demoChunk) demoApi String.length
     (by rw [List.length_replicate]) (fun ts => rfl)⟩

/-! ## Cost estimate (`import_products` lines 407–409) -/

/-- The token estimate `len(content) // 4` used both for the sink
record (line 280) and the cost estimate (line 407). -/
def chunkTokens (c : Chunk) : Nat :=
  c.content.length / 4

/-- Line 407: `total_tokens = sum([len(c['content']) // 4 for c in
batch_chunks]) * processed // len(batch_chunks) if batch_chunks else 0`.
After the loop, `batch_chunks` still holds the final (possibly partial)
batch — it is not reset by the final flush — so the figure is the last
batch's token sum times the processed count, floor-divided by the LAST
BATCH's length. -/
def total_tokens (batch_chunks : List Chunk) (processed : Nat) : Nat :=
  if batch_chunks.isEmpty then 0
  else (batch_chunks.map chunkTokens).sum * processed / batch_chunks.length

/-- Line 408: `cost = total_tokens / 1_000_000 * 0.02`.  The Python
float arithmetic is modelled exactly over the rationals. -/
def cost (t : Nat) : ℚ :=
  (t : ℚ) / 1000000 * (2 / 100)

/-- Modelled from the claim's words (C7): the last batch's token sum
"scaled by total processed rows divided by the batch size", the batch
size being the configured `BATCH_SIZE = 100` — for comparison with
`total_tokens`, which divides by the last batch's own length instead. -/
def claimedTokensC7 (batch_chunks : List Chunk) (processed : Nat) : Nat :=
  if batch_chunks.isEmpty then 0
  else (batch_chunks.map chunkTokens).sum * processed / BATCH_SIZE

set_option maxRecDepth 100000 in
/-- Counterexample to C7 as stated: running 150 one-token chunks leaves
a residual batch of 50, and the code computes `50 * 150 // 50 = 150`
tokens, not the `50 * 150 // 100 = 75` that scaling by the batch size
would give. -/
theorem cost_tokens_counterexample :
    total_tokens (processLoop (List.replicate 150 demoChunk) BATCH_SIZE).2
        (List.replicate 150 demoChunk).length = 150 ∧
    claimedTokensC7 (processLoop (List.replicate 150 demoChunk) BATCH_SIZE).2
        (List.replicate 150 demoChunk).length = 75 ∧
    (150 : Nat) ≠ 75 :=
  ⟨by decide, by decide, by decide⟩

/-- C7 (amended).  After the loop the residual `batch_chunks` is exactly
the trailing `len % 100` chunks of the input; the total-token figure is
that residual's token sum times the processed count, floor-divided by
the residual's length — the size of the last partial batch, not the
configured batch size — and zero when the input length is a multiple of
the batch size; the printed cost is the token total divided by one
million times 0.02. -/
theorem cost_tokens_amended (l : List Chunk) :
    (processLoop l BATCH_SIZE).2
      = l.drop (BATCH_SIZE * (l.length / BATCH_SIZE)) ∧
    total_tokens (processLoop l BATCH_SIZE).2 l.length
      = (if l.length % BATCH_SIZE = 0 then 0
         else ((l.drop (BATCH_SIZE * (l.length / BATCH_SIZE))).map
             chunkTokens).sum * l.length / (l.length % BATCH_SIZE)) ∧
    (∀ t : Nat, cost t = (t : ℚ) / 50000000) := by
  have hpl : loopGo BATCH_SIZE l [] = processLoop l BATCH_SIZE := rfl
  obtain ⟨h1, h2, h3⟩ :=
    loopGo_spec (α := Chunk) BATCH_SIZE (by decide) l [] (by decide)
  rw [hpl] at h1 h2 h3
  simp only [List.length_nil, Nat.zero_add, List.nil_append] at h1 h2 h3
  have hflat : (processLoop l BATCH_SIZE).1.flatten.length
      = BATCH_SIZE * (l.length / BATCH_SIZE) := by
    rw [List.length_flatten, h1, List.sum_replicate, smul_eq_mul, Nat.mul_comm]
  have hres : (processLoop l BATCH_SIZE).2
      = l.drop (BATCH_SIZE * (l.length / BATCH_SIZE)) := by
    have hdrop := List.drop_left (processLoop l BATCH_SIZE).1.flatten
      (processLoop l BATCH_SIZE).2
    rw [h3, hflat] at hdrop
    exact hdrop.symm
  refine ⟨hres, ?_, ?_⟩
  · by_cases hmod : l.length % BATCH_SIZE = 0
    · rw [if_pos hmod]
      have hnil : (processLoop l BATCH_SIZE).2 = [] := by
        rw [hmod] at h2
        exact List.eq_nil_of_length_eq_zero h2
      rw [hnil]
      rfl
    · rw [if_neg hmod]
      have hne : (processLoop l BATCH_SIZE).2.isEmpty = false := by
        rcases hl : (processLoop l BATCH_SIZE).2 with _ | ⟨a, as⟩
        · rw [hl] at h2
          exact absurd (by simpa using h2.symm) hmod
        · rfl
      unfold total_tokens
      rw [if_neg (by rw [hne]; exact Bool.false_ne_true)]
      rw [h2, hres]
  · intro t
    unfold cost
    ring_nf

/-! ## Sink write (`insert_to_supabase`) -/

/-- A record of the `knowledge_base` table as prepared by
`insert_to_supabase` lines 272–281. -/
structure KBRecord (V : Type) where
  title : String
  content : String
  embedding : Option V
  metadata : Metadata
  source : String
  tokens : Nat
  deriving DecidableEq, Repr

/-- The record list built from the chunks: each record carries the fixed
source tag `'volvo_sqlite'` and the token estimate
`len(content) // 4`. -/
def mkRecords {V : Type} (chunks : List (EmbChunk V)) : List (KBRecord V) :=
  chunks.map (fun c =>
    ⟨c.chunk.title, c.chunk.content, c.embedding, c.chunk.metadata,
     "volvo_sqlite", chunkTokens c.chunk⟩)

/-- `insert_to_supabase`: one bulk insert of the whole record list; an
absent or empty `result.data` raises (`Except.error`), which aborts the
run — no retry, no partial-batch rollback; otherwise the count of
inserted rows is returned. -/
def insert_to_supabase {V R : Type} (chunks : List (EmbChunk V))
    (store : List (KBRecord V) → Option (List R)) : Except String Nat :=
  match store (mkRecords chunks) with
  | none => Except.error "Failed to insert to Supabase"
  | some [] => Except.error "Failed to insert to Supabase"
  | some rows => Except.ok rows.length

/-- C8.  The sink write performs one bulk insert of the batch: every
record carries the fixed `'volvo_sqlite'` source tag and the
`len(content) // 4` token estimate; the call fails with a terminal error
exactly when the store's single answer for the full record list is
absent or empty, and otherwise reports the inserted row count. -/
theorem sink_write_spec {V R : Type} (chunks : List (EmbChunk V))
    (store : List (KBRecord V) → Option (List R)) :
    ((mkRecords chunks).map KBRecord.source
      = List.replicate chunks.length "volvo_sqlite") ∧
    ((mkRecords chunks).map KBRecord.tokens
      = chunks.map (fun c => c.chunk.content.length / 4)) ∧
    ((∃ e, insert_to_supabase chunks store = Except.error e) ↔
      (store (mkRecords chunks) = none ∨ store (mkRecords chunks) = some [])) ∧
    (∀ rows : List R, store (mkRecords chunks) = some rows → rows ≠ [] →
      insert_to_supabase chunks store = Except.ok rows.length) := by
  refine ⟨?_, ?_, ?_, ?_⟩
  · unfold mkRecords
    rw [List.map_map]
    have hconst : (KBRecord.source (V := V) ∘ fun c : EmbChunk V =>
        (⟨c.chunk.title, c.chunk.content, c.embedding, c.chunk.metadata,
          "volvo_sqlite", chunkTokens c.chunk⟩ : KBRecord V))
        = fun _ => "volvo_sqlite" := rfl
    rw [hconst, List.map_const']
  · unfold mkRecords
    rw [List.map_map]
    rfl
  · unfold insert_to_supabase
    cases hs : store (mkRecords chunks) with
    | none => simp
    | some rows =>
      cases rows with
      | nil => simp
      | cons a as => simp
  · intro rows hrows hne
    unfold insert_to_supabase
    rw [hrows]
    cases rows with
    | nil => exact absurd rfl hne
    | cons a as => rfl

/-- Demo embedded chunk and a store answering one inserted row. -/
def demoEmb : EmbChunk Nat := ⟨demoChunk, some 4⟩

def demoStore (_rs : List (KBRecord Nat)) : Option (List Nat) := some [7]

/-- Witness for C8: with a store returning a single row, the insert
succeeds and reports count 1. -/
theorem sink_write_spec_witness :
    demoStore (mkRecords [demoEmb]) = some [7] ∧ ([7] : List Nat) ≠ [] ∧
    insert_to_supabase [demoEmb] demoStore = Except.ok 1 :=
  ⟨rfl, by decide,
   (sink_write_spec [demoEmb] demoStore).2.2.2 [7] rfl (by decide)⟩

end VolvoImport
